import Mathlib

/-
Verification of the pbbt test-harness core: a shallow embedding of the
schema engine (pbbt/core.py), the selection and state machinery and the
control loop (pbbt/ctl.py), and the suite reconciliation algorithm
(pbbt/std.py), together with proofs about them.
-/

set_option autoImplicit false

/-- Generic document value: the scalar substrate handled by the schema
engine.  Field values are treated opaquely by load and dump, so scalars
suffice. -/
inductive Value where
  | null
  | bool (b : Bool)
  | int (n : Int)
  | str (s : String)
  deriving DecidableEq

/-- Embedding of TestFieldSpec from pbbt/core.py: attribute name, document
key, optional value validator (the isinstance style checks of pbbt/check.py
are modelled as boolean predicates), default value, declaration order and
the required marker. -/
structure TestFieldSpec where
  attr : String
  key : String
  check : Option (Value → Bool)
  default : Value
  order : Int
  required : Bool

/-- Embedding of TestRecord.recognizes: false if no field is required,
otherwise true when the key of every required field is a member of the
given key set. -/
def recognizes (fields : List TestFieldSpec) (keys : List String) : Bool :=
  if !(fields.any (fun f => f.required)) then
    false
  else
    (fields.filter (fun f => f.required)).all (fun f => keys.contains f.key)

/-- Embedding of TestRecord.dump: the (key, value) pairs of the fields, in
declaration order, skipping a field whose value equals its default unless
the field is required. -/
def dump (fields : List TestFieldSpec) (values : List Value) :
    List (String × Value) :=
  (fields.zip values).filterMap (fun fv =>
    if fv.2 = fv.1.default ∧ fv.1.required = false then
      Option.none
    else
      Option.some (fv.1.key, fv.2))

/-- Errors raised by TestRecord.load (the three ValueError branches). -/
inductive LoadErr where
  | missing (key : String)
  | invalid (key : String)
  | unknown (key : String)
  deriving DecidableEq

/-- Whether a value passes the validator of a field (no validator accepts
everything, mirroring the check None guard in TestRecord.load). -/
def checkOk (f : TestFieldSpec) (v : Value) : Bool :=
  match f.check with
  | Option.none => true
  | Option.some chk => chk v

/-- Dictionary membership for the mapping argument of load, modelled as an
association list. -/
def dictLookup (m : List (String × Value)) (k : String) : Option Value :=
  (m.find? (fun p => p.1 = k)).map (fun p => p.2)

/-- Removal of a key binding, modelling dict.pop in TestRecord.load. -/
def dictErase (m : List (String × Value)) (k : String) :
    List (String × Value) :=
  m.eraseP (fun p => p.1 = k)

/-- Lexicographically smallest key of a non-empty mapping, modelling
sorted(mapping)[0] in TestRecord.load. -/
def minKey (m : List (String × Value)) : String :=
  match m with
  | [] => ""
  | p :: ps => ps.foldl (fun acc q => if q.1 < acc then q.1 else acc) p.1

/-- The field loop of TestRecord.load: for each field in declaration order,
consume mapping[key] if present (after validation), else use the default,
or fail if the field is required; returns the argument list and the
remaining mapping (the final state of the consumed dictionary). -/
def loadFields : List TestFieldSpec → List (String × Value) →
    Except LoadErr (List Value × List (String × Value))
  | [], m => Except.ok ([], m)
  | f :: fs, m =>
    match dictLookup m f.key with
    | Option.none =>
      if f.required then
        Except.error (LoadErr.missing f.key)
      else
        match loadFields fs m with
        | Except.error e => Except.error e
        | Except.ok (vs, m1) => Except.ok (f.default :: vs, m1)
    | Option.some v =>
      if !checkOk f v then
        Except.error (LoadErr.invalid f.key)
      else
        match loadFields fs (dictErase m f.key) with
        | Except.error e => Except.error e
        | Except.ok (vs, m1) => Except.ok (v :: vs, m1)

/-- Embedding of TestRecord.load: run the field loop, then fail on any
leftover key, naming the lexicographically smallest one; on success the
record field values are returned together with the (empty) final mapping. -/
def load (fields : List TestFieldSpec) (m : List (String × Value)) :
    Except LoadErr (List Value × List (String × Value)) :=
  match loadFields fields m with
  | Except.error e => Except.error e
  | Except.ok (vs, m1) =>
    if m1.isEmpty then
      Except.ok (vs, m1)
    else
      Except.error (LoadErr.unknown (minKey m1))

/-- A record type: identity of the owning test type, identity of the record
class itself (Input and Output classes of one test type have distinct
identities), and the ordered field list.  Mirrors the owner and fields
attributes produced by TestRecord.make. -/
structure RecordType where
  owner : Nat
  id : Nat
  fields : List TestFieldSpec

/-- A record instance: its type and the tuple of field values, aligned with
the field list (the slots written by TestRecord.init). -/
structure RecordVal where
  type : RecordType
  values : List Value

/-- getattr on a record: the value of the field with the given attribute
name. -/
def attrVal (r : RecordVal) (attr : String) : Option Value :=
  ((r.type.fields.zip r.values).find? (fun fv => fv.1.attr = attr)).map
    (fun fv => fv.2)

/-- The set of attributes of the required fields of a record, as collected
for the other record in TestRecord.complements. -/
def requiredAttrs (r : RecordVal) : List String :=
  (r.type.fields.filter (fun f => f.required)).map (fun f => f.attr)

/-- The first required field of a record whose attribute is also a required
field attribute of the other record (the match field loop of
TestRecord.complements). -/
def matchField (a b : RecordVal) : Option TestFieldSpec :=
  a.type.fields.find? (fun f =>
    f.required && (requiredAttrs b).contains f.attr)

/-- Embedding of TestRecord.complements: the records must belong to the
same owning test type, be of different record classes, share a required
field by attribute, and agree on the value of the first such field. -/
def complements (a b : RecordVal) : Bool :=
  if !(a.type.owner = b.type.owner && a.type.id ≠ b.type.id) then
    false
  else
    match matchField a b with
    | Option.none => false
    | Option.some f =>
      match attrVal a f.attr, attrVal b f.attr with
      | Option.some va, Option.some vb => va = vb
      | _, _ => false

/-- All suffixes of a list, longest first, the empty suffix included. -/
def suffixes {γ : Type} : List γ → List (List γ)
  | [] => [[]]
  | c :: s => (c :: s) :: suffixes s

/-- A glob segment match in the style of fnmatch.fnmatchcase, restricted to
the star and question mark wildcards (other characters match literally),
over explicit character lists: first argument is the pattern, second the
name.  A star consumes any prefix, so it matches when the rest of the
pattern matches some suffix. -/
def globChars : List Char → List Char → Bool
  | [], s => s.isEmpty
  | '*' :: ps, s => (suffixes s).any (fun t => globChars ps t)
  | '?' :: ps, s =>
    (match s with
     | [] => false
     | _ :: s1 => globChars ps s1)
  | c :: ps, s =>
    (match s with
     | [] => false
     | c1 :: s1 => c = c1 && globChars ps s1)

/-- fnmatch.fnmatchcase(name, pat) as used by Selection. -/
def globMatch (name pat : String) : Bool :=
  globChars pat.toList name.toList

/-- Embedding of Selection from pbbt/ctl.py: the current descent path, the
set of patterns relative to the current depth (none means everything is
selected), and the stack of saved pattern sets.  Patterns are kept as
segment lists, the result of splitting the slash separated notation. -/
structure Selection where
  path : List String
  targets : Option (List (List String))
  saved : List (Option (List (List String)))

/-- The Selection constructor over already split patterns: no patterns, or
any empty pattern, selects everything. -/
def mkSelection (targets : List (List String)) : Selection :=
  if targets.isEmpty || targets.any (fun t => t.isEmpty) then
    { path := [], targets := Option.none, saved := [] }
  else
    { path := [], targets := Option.some targets, saved := [] }

/-- Whether the first segment of a pattern glob-matches the given suite
identifier (target[0] in Selection.contains and Selection.descend). -/
def headMatches (suite : String) (target : List String) : Bool :=
  match target with
  | [] => false
  | p :: _ => globMatch suite p

/-- Embedding of Selection.contains: everything is selected when targets
is absent, otherwise some pattern must glob-match on its first segment. -/
def Selection.containsSuite (sel : Selection) (suite : String) : Bool :=
  match sel.targets with
  | Option.none => true
  | Option.some ts => ts.any (fun t => headMatches suite t)

/-- Embedding of Selection.descend: push the suite on the path, save the
current targets, and keep the tails of the patterns whose first segment
matched; if some matched pattern is exhausted, everything below is
selected. -/
def Selection.descend (sel : Selection) (suite : String) : Selection :=
  let saved := sel.targets :: sel.saved
  let path := sel.path ++ [suite]
  match sel.targets with
  | Option.none => { path := path, targets := Option.none, saved := saved }
  | Option.some ts =>
    let ts1 := (ts.filter (fun t => headMatches suite t)).map
      (fun t => t.tail)
    if ts1.contains [] then
      { path := path, targets := Option.none, saved := saved }
    else
      { path := path, targets := Option.some ts1, saved := saved }

/-- Embedding of Selection.ascend: pop the path and restore the saved
pattern set. -/
def Selection.ascend (sel : Selection) : Selection :=
  { path := sel.path.dropLast,
    targets := sel.saved.headD Option.none,
    saved := sel.saved.tail }

/-- Embedding of State from pbbt/ctl.py: the live variable map together
with the stack of snapshots.  The map is modelled extensionally as a
partial function from names to values. -/
structure PState where
  map : String → Option Value
  snapshots : List (String → Option Value)

/-- A mutation of the live variable map: setting a key or deleting a key.
These are the dict operations State inherits; neither touches the snapshot
stack. -/
inductive StateOp where
  | set (k : String) (v : Value)
  | del (k : String)

/-- Apply one mutation to the live map. -/
def applyStateOp (s : PState) : StateOp → PState
  | StateOp.set k v =>
    { s with map := fun x => if x = k then Option.some v else s.map x }
  | StateOp.del k =>
    { s with map := fun x => if x = k then Option.none else s.map x }

/-- Apply a sequence of mutations to the live map. -/
def applyStateOps (s : PState) (ops : List StateOp) : PState :=
  ops.foldl applyStateOp s

/-- Embedding of State.save: push a copy of the current map. -/
def PState.save (s : PState) : PState :=
  { s with snapshots := s.map :: s.snapshots }

/-- Embedding of State.restore: replace the live map with the most recent
snapshot and pop it off the stack. -/
def PState.restore (s : PState) : PState :=
  { map := s.snapshots.headD (fun _ => Option.none),
    snapshots := s.snapshots.tail }

/-- The run-scoped counters and flags of Control from pbbt/ctl.py. -/
structure Ctl where
  successNum : Nat
  failureNum : Nat
  updateNum : Nat
  maxErrors : Nat
  halted : Bool

/-- The initial Control state for a given failure threshold. -/
def ctlInit (maxErrors : Nat) : Ctl :=
  { successNum := 0, failureNum := 0, updateNum := 0,
    maxErrors := maxErrors, halted := false }

/-- The Control operations that touch the counters and the halted flag. -/
inductive CtlOp where
  | passed
  | failed
  | updated
  | halt
  deriving DecidableEq

/-- One Control operation: passed and updated bump their counters; failed
bumps the failure counter and halts once it reaches a nonzero threshold;
halt raises the halted flag. -/
def ctlStep (c : Ctl) : CtlOp → Ctl
  | CtlOp.passed => { c with successNum := c.successNum + 1 }
  | CtlOp.failed =>
    let c1 := { c with failureNum := c.failureNum + 1 }
    if c1.maxErrors ≠ 0 && c1.maxErrors ≤ c1.failureNum then
      { c1 with halted := true }
    else
      c1
  | CtlOp.updated => { c with updateNum := c.updateNum + 1 }
  | CtlOp.halt => { c with halted := true }

/-- Run a sequence of Control operations. -/
def ctlRun (c : Ctl) (ops : List CtlOp) : Ctl :=
  ops.foldl ctlStep c

/-- The number of failed operations in a sequence. -/
def countFailed (ops : List CtlOp) : Nat :=
  (ops.filter (fun op => op = CtlOp.failed)).length

/-- The reconciliation view of one nested case inside SuiteCase.train:
the position of its matched prior output inside the prior output list (or
none when the case matched nothing), and its entry in the new output map
(none when the case is not in the map because running it reproduced its
prior output; some when the produced result differed, which may itself be
no output at all). -/
structure CaseEntry (α : Type) where
  prior : Option Nat
  entry : Option (Option α)

/-- Python list.insert: positions past the end append, as list.insert
clamps. -/
def pyInsert {α : Type} (l : List α) (i : Nat) (a : α) : List α :=
  l.take i ++ a :: l.drop i

/-- One iteration of the reconciliation loop of SuiteCase.train over the
accumulator (next insertion point, pending updates, pending inserts). -/
def scanStep {α : Type} (st : Nat × List (Nat × α) × List (Nat × α))
    (c : CaseEntry α) : Nat × List (Nat × α) × List (Nat × α) :=
  match c.entry, c.prior with
  | Option.some (Option.some v), Option.some idx =>
    (if st.1 ≤ idx then idx + 1 else st.1,
     st.2.1 ++ [(idx, v)], st.2.2)
  | Option.some (Option.some v), Option.none =>
    (st.1, st.2.1, st.2.2 ++ [(st.1, v)])
  | Option.some Option.none, _ => st
  | Option.none, Option.some idx => (idx + 1, st.2.1, st.2.2)
  | Option.none, Option.none => st

/-- The full reconciliation loop of SuiteCase.train. -/
def codeScan {α : Type} (cases : List (CaseEntry α)) :
    Nat × List (Nat × α) × List (Nat × α) :=
  cases.foldl scanStep (0, [], [])

/-- Application of the pending updates: tests[idx] = case_output. -/
def applyUpdates {α : Type} (ts : List α) (upd : List (Nat × α)) : List α :=
  upd.foldl (fun ts p => ts.set p.1 p.2) ts

/-- Stable insertion of a pending insert by position key (the element goes
before every entry with a strictly larger key and after entries with a
smaller or equal key). -/
def insertSorted {α : Type} (x : Nat × α) :
    List (Nat × α) → List (Nat × α)
  | [] => [x]
  | y :: ys => if y.1 < x.1 then y :: insertSorted x ys else x :: y :: ys

/-- Stable sort of the pending inserts by position key, modelling
inserts.sort(key=(lambda t: t[0])). -/
def sortByIdx {α : Type} (l : List (Nat × α)) : List (Nat × α) :=
  l.foldr insertSorted []

/-- Application of the pending inserts: sorted by position and applied in
reverse, as in SuiteCase.train. -/
def applyInserts {α : Type} (ts : List α) (ins : List (Nat × α)) : List α :=
  (sortByIdx ins).reverse.foldl (fun ts p => pyInsert ts p.1 p.2) ts

/-- The non-purge branch of SuiteCase.train: when the new output map is
empty the prior output list is kept; otherwise the pending updates are
written at their original positions and the pending inserts are placed at
the recorded insertion points. -/
def trainMergeCode {α : Type} (tests0 : List α) (cases : List (CaseEntry α)) :
    List α :=
  if cases.all (fun c => c.entry.isNone) then
    tests0
  else
    let scanned := codeScan cases
    applyInserts (applyUpdates tests0 scanned.2.1) scanned.2.2

/-- The purge branch of SuiteCase.train: in input order, the new output of
every case that has one in the map, else its retained prior output;
cases with no output contribute nothing. -/
def purgeMergeCode {α : Type} (tests0 : List α)
    (cases : List (CaseEntry α)) : List α :=
  cases.filterMap (fun c =>
    match c.entry with
    | Option.some newv => newv
    | Option.none =>
      match c.prior with
      | Option.some i => tests0[i]?
      | Option.none => Option.none)

/-- The prior output list tagged with original positions, the starting
state of the cursor description of reconciliation. -/
def tagBase {α : Type} (ts : List α) : List (Option Nat × α) :=
  ts.enum.map (fun p => (Option.some p.1, p.2))

/-- One step of the reconciliation algorithm exactly as the specification
words it: a case whose prior output is present in the list has that
position overwritten with its new output, if any, and the cursor advanced
just past the position; a case with no prior output that produces one is
inserted at the cursor, which advances past the insertion; a case that
neither had nor produces output leaves everything alone. -/
def specStepClaim {α : Type} (st : List (Option Nat × α) × Nat)
    (c : CaseEntry α) : List (Option Nat × α) × Nat :=
  match c.prior with
  | Option.some i =>
    let p := st.1.findIdx (fun e => e.1 == Option.some i)
    match c.entry with
    | Option.none => (st.1, p + 1)
    | Option.some (Option.some v) =>
      (st.1.set p (Option.some i, v), p + 1)
    | Option.some Option.none => (st.1, p + 1)
  | Option.none =>
    match c.entry with
    | Option.some (Option.some v) =>
      (pyInsert st.1 st.2 (Option.none, v), st.2 + 1)
    | _ => st

/-- The reconciliation algorithm exactly as the specification words it. -/
def specMergeClaim {α : Type} (ts : List α) (cases : List (CaseEntry α)) :
    List α :=
  ((cases.foldl specStepClaim (tagBase ts, 0)).1).map Prod.snd

/-- One step of the amended cursor description of reconciliation: as in
specStepClaim, except that a case whose prior output is present but whose
changed result is no output at all leaves both the list and the cursor
untouched. -/
def specStepAmended {α : Type} (st : List (Option Nat × α) × Nat)
    (c : CaseEntry α) : List (Option Nat × α) × Nat :=
  match c.prior with
  | Option.some i =>
    let p := st.1.findIdx (fun e => e.1 == Option.some i)
    match c.entry with
    | Option.none => (st.1, p + 1)
    | Option.some (Option.some v) =>
      (st.1.set p (Option.some i, v), p + 1)
    | Option.some Option.none => st
  | Option.none =>
    match c.entry with
    | Option.some (Option.some v) =>
      (pyInsert st.1 st.2 (Option.none, v), st.2 + 1)
    | _ => st

/-- The amended cursor description of reconciliation. -/
def specMergeAmended {α : Type} (ts : List α) (cases : List (CaseEntry α)) :
    List α :=
  ((cases.foldl specStepAmended (tagBase ts, 0)).1).map Prod.snd

/-- The matched prior positions of a case list, in case order. -/
def priorsOf {α : Type} (cases : List (CaseEntry α)) : List Nat :=
  cases.filterMap (fun c => c.prior)

/-- Recursive form of the reverse application of pending inserts, used to
reason about applyInserts: the chronologically last insert is applied
first. -/
def insRec {α : Type} (ts : List α) : List (Nat × α) → List α
  | [] => ts
  | p :: ps => pyInsert (insRec ts ps) p.1 p.2

/-- The bindings of a mapping whose keys match no field key: these are the
bindings the field loop of TestRecord.load leaves unconsumed. -/
def leftover (fields : List TestFieldSpec) (m : List (String × Value)) :
    List (String × Value) :=
  m.filter (fun p => !(fields.any (fun f => f.key = p.1)))

/-- The pending updates of SuiteCase.train applied to a position-tagged
copy of the prior output list; a position keeps its tag when its value is
overwritten. -/
def applyUpdT {α : Type} (ts : List (Option Nat × α))
    (upd : List (Nat × α)) : List (Option Nat × α) :=
  upd.foldl (fun ts p => ts.set p.1 (Option.some p.1, p.2)) ts

/-- The pending inserts of SuiteCase.train tagged as new (untagged)
elements. -/
def tagIns {α : Type} (ins : List (Nat × α)) :
    List (Nat × (Option Nat × α)) :=
  ins.map (fun p => (p.1, (Option.none, p.2)))

/-- The position-tagged list that the accumulated updates and inserts of
the reconciliation loop produce from the prior output list. -/
def realize {α : Type} (ts0 : List α) (upd ins : List (Nat × α)) :
    List (Option Nat × α) :=
  insRec (applyUpdT (tagBase ts0) upd) (tagIns ins)

/-
Theorems.
-/

/-- C3: recognizes returns true if and only if the record type declares at
least one required field and the key of every required field is a member of
the given key set; in particular a type with no required fields recognizes
no key set. -/
theorem recognizes_characterization (fields : List TestFieldSpec)
    (keys : List String) :
    recognizes fields keys = true ↔
      ((∃ f ∈ fields, f.required = true) ∧
        ∀ f ∈ fields, f.required = true → f.key ∈ keys) := by
  by_cases h : fields.any (fun f => f.required) = true
  · simp only [recognizes, h, Bool.not_true, Bool.false_eq_true, if_false,
      List.all_eq_true, List.mem_filter]
    constructor
    · intro hall
      refine ⟨?_, ?_⟩
      · simpa [List.any_eq_true] using h
      · intro f hf hreq
        have := hall f ⟨hf, hreq⟩
        simpa [List.elem_iff] using this
    · rintro ⟨-, hall⟩ f hf
      simpa [List.elem_iff] using hall f hf.1 hf.2
  · simp only [recognizes, h]
    simp only [List.any_eq_true] at h
    push_neg at h
    constructor
    · intro hfalse
      exact absurd hfalse (by simp)
    · rintro ⟨⟨f, hf, hreq⟩, -⟩
      exact absurd hreq (h f hf)

/-- C6 counterexample: for a required field whose value equals the field
default, dump keeps the pair instead of omitting it, so the claimed
characterization (every field at its default value is omitted) fails. -/
theorem dump_required_default_cex :
    dump [⟨"title", "title", Option.none, Value.null, 0, true⟩]
        [Value.null] = [("title", Value.null)] ∧
      ([⟨"title", "title", Option.none, Value.null, 0, true⟩] :
          List TestFieldSpec).all
        (fun f => decide (f.default = Value.null)) = true := by
  constructor
  · rfl
  · rfl

/-- C6 amended: dump returns exactly the (key, value) pairs, in declaration
order, of the fields whose value differs from the default or which are
required; only optional fields at their default value are omitted. -/
theorem dump_characterization (fields : List TestFieldSpec)
    (values : List Value) :
    dump fields values =
      ((fields.zip values).filter
        (fun fv => fv.2 ≠ fv.1.default ∨ fv.1.required = true)).map
        (fun fv => (fv.1.key, fv.2)) := by
  unfold dump
  generalize fields.zip values = l
  induction l with
  | nil => rfl
  | cons fv l ih =>
    by_cases h : fv.2 = fv.1.default ∧ fv.1.required = false
    · have h2 : ¬(fv.2 ≠ fv.1.default ∨ fv.1.required = true) := by
        rcases h with ⟨h1, hr⟩
        push_neg
        exact ⟨h1, by simp [hr]⟩
      simp [List.filterMap_cons, List.filter_cons, h, h2, ih]
    · have h2 : fv.2 ≠ fv.1.default ∨ fv.1.required = true := by
        by_contra hc
        push_neg at hc
        exact h ⟨hc.1, by simpa using hc.2⟩
      simp [List.filterMap_cons, List.filter_cons, h, h2, ih]

theorem dictLookup_eq_none (m : List (String × Value)) (k : String)
    (h : k ∉ m.map Prod.fst) : dictLookup m k = Option.none := by
  induction m with
  | nil => rfl
  | cons p ps ih =>
    simp only [List.map_cons, List.mem_cons] at h
    push_neg at h
    simp only [dictLookup, List.find?_cons]
    have hpk : (decide (p.1 = k)) = false :=
      decide_eq_false (fun hc => h.1 hc.symm)
    rw [hpk]
    exact ih h.2

theorem dictLookup_isSome_of_mem (m : List (String × Value)) (k : String)
    (h : k ∈ m.map Prod.fst) : ∃ v, dictLookup m k = Option.some v := by
  induction m with
  | nil => simp at h
  | cons p ps ih =>
    by_cases hpk : p.1 = k
    · refine ⟨p.2, ?_⟩
      simp [dictLookup, List.find?_cons, hpk]
    · simp only [List.map_cons, List.mem_cons] at h
      rcases h with h | h
      · exact absurd h.symm hpk
      · rcases ih h with ⟨v, hv⟩
        refine ⟨v, ?_⟩
        simpa [dictLookup, List.find?_cons, hpk] using hv

theorem dump_keys_subset (fields : List TestFieldSpec)
    (values : List Value) (k : String)
    (h : k ∈ (dump fields values).map Prod.fst) :
    k ∈ fields.map (fun f => f.key) := by
  simp only [dump, List.map_filterMap, List.mem_filterMap] at h
  rcases h with ⟨fv, hfv, hk⟩
  by_cases hc : fv.2 = fv.1.default ∧ fv.1.required = false
  · simp [hc] at hk
  · simp only [hc, if_false, Option.map_some] at hk
    have : fv.1 ∈ fields := (List.of_mem_zip hfv).1
    have hk2 : fv.1.key = k := by
      simpa using hk
    exact hk2 ▸ List.mem_map_of_mem (fun f => f.key) this

/-- C2: the round trip property.  For a record whose field keys are
distinct, whose value tuple is aligned with the field list, and whose
values pass their validators, loading the mapping produced by dump
succeeds, consumes everything, and restores exactly the original values;
omitted defaulted fields come back as their defaults. -/
theorem load_dump_roundtrip (fields : List TestFieldSpec)
    (values : List Value)
    (hnd : (fields.map (fun f => f.key)).Nodup)
    (hlen : values.length = fields.length)
    (hchk : ∀ fv ∈ fields.zip values, checkOk fv.1 fv.2 = true) :
    load fields (dump fields values) = Except.ok (values, []) := by
  suffices h : loadFields fields (dump fields values) =
      Except.ok (values, []) by
    simp [load, h, List.isEmpty]
  induction fields generalizing values with
  | nil =>
    have : values = [] := List.eq_nil_of_length_eq_zero hlen
    subst this
    rfl
  | cons f fs ih =>
    match values, hlen with
    | v :: vs, hlen =>
      have hlen2 : vs.length = fs.length := by
        simpa using hlen
      have hnd2 : (fs.map (fun f => f.key)).Nodup := by
        simpa using hnd.of_cons
      have hknotin : f.key ∉ fs.map (fun f => f.key) := by
        have := hnd
        simp only [List.map_cons, List.nodup_cons] at this
        exact this.1
      have hchk2 : ∀ fv ∈ fs.zip vs, checkOk fv.1 fv.2 = true := by
        intro fv hfv
        exact hchk fv (by simp [List.zip_cons_cons, hfv])
      have ihres := ih vs hnd2 hlen2 hchk2
      have hnotin : f.key ∉ (dump fs vs).map Prod.fst := by
        intro hmem
        exact hknotin (dump_keys_subset fs vs f.key hmem)
      by_cases hskip : v = f.default ∧ f.required = false
      · have hdump : dump (f :: fs) (v :: vs) = dump fs vs := by
          simp [dump, List.zip_cons_cons, List.filterMap_cons, hskip]
        rw [hdump]
        simp only [loadFields, dictLookup_eq_none (dump fs vs) f.key hnotin,
          hskip.2, if_false]
        rw [ihres, hskip.1]
        simp
      · have hdump : dump (f :: fs) (v :: vs) =
            (f.key, v) :: dump fs vs := by
          simp [dump, List.zip_cons_cons, List.filterMap_cons, hskip]
        rw [hdump]
        have hlook : dictLookup ((f.key, v) :: dump fs vs) f.key =
            Option.some v := by
          simp [dictLookup, List.find?_cons]
        have hchk1 : checkOk f v = true :=
          hchk (f, v) (by simp [List.zip_cons_cons])
        have herase : dictErase ((f.key, v) :: dump fs vs) f.key =
            dump fs vs := by
          simp [dictErase, List.eraseP_cons]
        simp only [loadFields, hlook, hchk1, Bool.not_true, Bool.false_eq_true,
          if_false, herase, ihres]

/-- C2 witness: the round trip at a concrete two-field record (a required
string field and an optional flag at its default). -/
theorem load_dump_roundtrip_witness :
    load
      [⟨"title", "title",
        Option.some (fun v => match v with | Value.str _ => true | _ => false),
        Value.null, 0, true⟩,
       ⟨"skip", "skip", Option.none, Value.bool false, 1, false⟩]
      (dump
        [⟨"title", "title",
          Option.some (fun v =>
            match v with | Value.str _ => true | _ => false),
          Value.null, 0, true⟩,
         ⟨"skip", "skip", Option.none, Value.bool false, 1, false⟩]
        [Value.str "x", Value.bool false]) =
      Except.ok ([Value.str "x", Value.bool false], []) :=
  load_dump_roundtrip _ _ (by decide) (by decide) (by decide)

theorem dictErase_of_none (m : List (String × Value)) (k : String)
    (h : dictLookup m k = Option.none) : dictErase m k = m := by
  induction m with
  | nil => rfl
  | cons p ps ih =>
    by_cases hpk : p.1 = k
    · exfalso
      simp [dictLookup, List.find?_cons, hpk] at h
    · simp only [dictLookup, List.find?_cons, decide_eq_false hpk] at h
      simp only [dictErase, List.eraseP_cons, decide_eq_false hpk,
        cond_false, List.cons.injEq, true_and]
      exact ih h

/-- C10: load consumes its mapping.  First, whenever load succeeds the
final state of its mapping argument is empty.  Second, the field loop
leaves the mapping in exactly the state obtained by popping each field key
in turn, which is how every binding matching a field key disappears. -/
theorem load_consumes_mapping :
    (∀ (fields : List TestFieldSpec) (m : List (String × Value))
      (vs : List Value) (m1 : List (String × Value)),
      load fields m = Except.ok (vs, m1) → m1 = []) ∧
    (∀ (fields : List TestFieldSpec) (m : List (String × Value))
      (vs : List Value) (m1 : List (String × Value)),
      loadFields fields m = Except.ok (vs, m1) →
        m1 = fields.foldl (fun acc f => dictErase acc f.key) m) := by
  constructor
  · intro fields m vs m1 h
    unfold load at h
    cases hlf : loadFields fields m with
    | error e => rw [hlf] at h; exact absurd h (by simp)
    | ok p =>
      obtain ⟨pv, pm⟩ := p
      rw [hlf] at h
      by_cases hemp : pm.isEmpty = true
      · simp only [hemp, if_true, Except.ok.injEq, Prod.mk.injEq] at h
        rw [← h.2]
        exact List.isEmpty_iff.mp hemp
      · simp only [hemp] at h
        exact absurd h (by simp)
  · intro fields
    induction fields with
    | nil =>
      intro m vs m1 h
      simp only [loadFields, Except.ok.injEq, Prod.mk.injEq] at h
      simp [← h.2]
    | cons f fs ih =>
      intro m vs m1 h
      simp only [loadFields] at h
      cases hlk : dictLookup m f.key with
      | none =>
        rw [hlk] at h
        by_cases hreq : f.required = true
        · simp [hreq] at h
        · simp only [Bool.of_not_eq_true hreq, Bool.false_eq_true,
            if_false] at h
          cases hlf : loadFields fs m with
          | error e => rw [hlf] at h; exact absurd h (by simp)
          | ok q =>
            obtain ⟨qv, qm⟩ := q
            rw [hlf] at h
            simp only [Except.ok.injEq, Prod.mk.injEq] at h
            have := ih m qv qm hlf
            rw [← h.2, this, List.foldl_cons,
              dictErase_of_none m f.key hlk]
      | some v =>
        rw [hlk] at h
        by_cases hchk : checkOk f v = true
        · simp only [hchk, Bool.not_true, Bool.false_eq_true, if_false] at h
          cases hlf : loadFields fs (dictErase m f.key) with
          | error e => rw [hlf] at h; exact absurd h (by simp)
          | ok q =>
            obtain ⟨qv, qm⟩ := q
            rw [hlf] at h
            simp only [Except.ok.injEq, Prod.mk.injEq] at h
            have := ih (dictErase m f.key) qv qm hlf
            rw [← h.2, this, List.foldl_cons]
        · simp [Bool.of_not_eq_true hchk] at h

/-- C10 witness: a concrete successful load leaves an empty mapping. -/
theorem load_consumes_mapping_witness :
    ([("skip", Value.bool true)] : List (String × Value)) ≠ [] ∧
      ([] : List (String × Value)) = [] :=
  ⟨by decide,
    load_consumes_mapping.1
      [⟨"skip", "skip", Option.none, Value.bool false, 0, false⟩]
      [("skip", Value.bool true)] [Value.bool true] [] rfl⟩

theorem dictLookup_dictErase_ne (m : List (String × Value)) (k1 k2 : String)
    (h : k1 ≠ k2) : dictLookup (dictErase m k2) k1 = dictLookup m k1 := by
  induction m with
  | nil => rfl
  | cons p ps ih =>
    by_cases hp2 : p.1 = k2
    · simp only [dictErase, List.eraseP_cons, decide_eq_true hp2, cond_true]
      have hp1 : (decide (p.1 = k1)) = false :=
        decide_eq_false (fun hc => h (hc ▸ hp2 ▸ rfl))
      simp only [dictLookup, List.find?_cons, hp1]
    · simp only [dictErase, List.eraseP_cons, decide_eq_false hp2, cond_false]
      by_cases hp1 : p.1 = k1
      · simp [dictLookup, List.find?_cons, hp1]
      · simp only [dictLookup, List.find?_cons, decide_eq_false hp1]
        exact ih

theorem dictErase_keys_sublist (m : List (String × Value)) (k : String) :
    ((dictErase m k).map Prod.fst).Sublist (m.map Prod.fst) :=
  ((List.eraseP_sublist m).map Prod.fst)

theorem mem_keys_dictErase_ne (m : List (String × Value)) (k1 k2 : String)
    (hne : k1 ≠ k2) (h : k1 ∈ m.map Prod.fst) :
    k1 ∈ (dictErase m k2).map Prod.fst := by
  induction m with
  | nil => simp at h
  | cons p ps ih =>
    by_cases hp2 : p.1 = k2
    · simp only [dictErase, List.eraseP_cons, decide_eq_true hp2, cond_true]
      simp only [List.map_cons, List.mem_cons] at h
      rcases h with h | h
      · exact absurd (h ▸ hp2) hne
      · exact h
    · simp only [dictErase, List.eraseP_cons, decide_eq_false hp2, cond_false,
        List.map_cons, List.mem_cons]
      simp only [List.map_cons, List.mem_cons] at h
      rcases h with h | h
      · exact Or.inl h
      · exact Or.inr (ih h)

theorem not_mem_keys_dictErase (m : List (String × Value)) (k : String)
    (hnd : (m.map Prod.fst).Nodup) : k ∉ (dictErase m k).map Prod.fst := by
  induction m with
  | nil => simp [dictErase]
  | cons p ps ih =>
    simp only [List.map_cons, List.nodup_cons] at hnd
    by_cases hp : p.1 = k
    · simp only [dictErase, List.eraseP_cons, decide_eq_true hp, cond_true]
      rw [← hp]
      exact hnd.1
    · simp only [dictErase, List.eraseP_cons, decide_eq_false hp, cond_false,
        List.map_cons, List.mem_cons]
      push_neg
      exact ⟨fun hc => hp hc.symm, ih hnd.2⟩

theorem filter_eraseP {β : Type} (r q : β → Bool) (m : List β)
    (h : ∀ p, r p = true → q p = false) :
    (m.eraseP r).filter q = m.filter q := by
  induction m with
  | nil => rfl
  | cons p ps ih =>
    by_cases hr : r p = true
    · simp only [List.eraseP_cons, hr, cond_true, List.filter_cons, h p hr,
        Bool.false_eq_true, if_false]
    · simp only [List.eraseP_cons, Bool.of_not_eq_true hr, cond_false,
        List.filter_cons]
      rw [ih]

theorem leftover_cons_absent (f : TestFieldSpec) (fs : List TestFieldSpec)
    (m : List (String × Value)) (h : f.key ∉ m.map Prod.fst) :
    leftover (f :: fs) m = leftover fs m := by
  unfold leftover
  apply List.filter_congr
  intro p hp
  have hne : f.key ≠ p.1 := by
    intro hc
    exact h (hc ▸ List.mem_map_of_mem Prod.fst hp)
  simp [List.any_cons, hne]

theorem leftover_cons_erase (f : TestFieldSpec) (fs : List TestFieldSpec)
    (m : List (String × Value)) (hnd : (m.map Prod.fst).Nodup) :
    leftover fs (dictErase m f.key) = leftover (f :: fs) m := by
  unfold leftover
  have h1 : ∀ p ∈ dictErase m f.key,
      (!(fs.any (fun g => g.key = p.1))) =
        (!((f :: fs).any (fun g => g.key = p.1))) := by
    intro p hp
    have hpk : p.1 ≠ f.key := by
      intro hc
      have hmem : p.1 ∈ (dictErase m f.key).map Prod.fst :=
        List.mem_map_of_mem Prod.fst hp
      rw [hc] at hmem
      exact not_mem_keys_dictErase m f.key hnd hmem
    have hfk : (decide (f.key = p.1)) = false :=
      decide_eq_false (fun hc => hpk hc.symm)
    simp [List.any_cons, hfk]
  rw [List.filter_congr h1]
  unfold dictErase
  apply filter_eraseP
  intro p hr
  simp only [decide_eq_true_eq] at hr
  simp [List.any_cons, hr]

theorem loadFields_leftover (fields : List TestFieldSpec) :
    ∀ (m : List (String × Value)),
    (fields.map (fun f => f.key)).Nodup →
    (m.map Prod.fst).Nodup →
    (∀ f ∈ fields, f.required = true → f.key ∈ m.map Prod.fst) →
    (∀ f ∈ fields, ∀ v, dictLookup m f.key = Option.some v →
      checkOk f v = true) →
    ∃ vs, loadFields fields m = Except.ok (vs, leftover fields m) := by
  induction fields with
  | nil =>
    intro m _ _ _ _
    refine ⟨[], ?_⟩
    simp [loadFields, leftover, List.filter_eq_self]
  | cons f fs ih =>
    intro m hndf hndm hreq hchk
    have hndf2 : (fs.map (fun f => f.key)).Nodup := by
      simpa using hndf.of_cons
    have hkeyf : f.key ∉ fs.map (fun f => f.key) := by
      have := hndf
      simp only [List.map_cons, List.nodup_cons] at this
      exact this.1
    cases hlk : dictLookup m f.key with
    | none =>
      have hnotmem : f.key ∉ m.map Prod.fst := by
        intro hmem
        rcases dictLookup_isSome_of_mem m f.key hmem with ⟨v, hv⟩
        rw [hv] at hlk
        exact absurd hlk (by simp)
      have hreqf : f.required = false := by
        by_cases hr : f.required = true
        · exact absurd (hreq f (by simp) hr) hnotmem
        · exact Bool.of_not_eq_true hr
      obtain ⟨vs, hvs⟩ := ih m hndf2 hndm
        (fun g hg => hreq g (by simp [hg]))
        (fun g hg => hchk g (by simp [hg]))
      refine ⟨f.default :: vs, ?_⟩
      simp only [loadFields, hlk, hreqf, Bool.false_eq_true, if_false]
      rw [hvs, leftover_cons_absent f fs m hnotmem]
    | some v =>
      have hchk1 : checkOk f v = true := hchk f (by simp) v hlk
      have hndm1 : ((dictErase m f.key).map Prod.fst).Nodup :=
        (dictErase_keys_sublist m f.key).nodup hndm
      have hne : ∀ g ∈ fs, g.key ≠ f.key := by
        intro g hg hc
        exact hkeyf (hc ▸ List.mem_map_of_mem (fun f => f.key) hg)
      obtain ⟨vs, hvs⟩ := ih (dictErase m f.key) hndf2 hndm1
        (fun g hg hr => mem_keys_dictErase_ne m g.key f.key (hne g hg)
          (hreq g (by simp [hg]) hr))
        (fun g hg w hw => hchk g (by simp [hg]) w
          (by rwa [dictLookup_dictErase_ne m g.key f.key (hne g hg)] at hw))
      refine ⟨v :: vs, ?_⟩
      simp only [loadFields, hlk, hchk1, Bool.not_true, Bool.false_eq_true,
        if_false]
      rw [hvs, leftover_cons_erase f fs m hndm]

/-- C7 counterexample: a mapping with the alien key z but missing the
required key a fails with the missing-field error, not with the
unknown-field error naming the smallest leftover key, so the claim as
stated does not hold for every mapping containing non-field keys. -/
theorem load_unknown_key_cex :
    leftover [⟨"a", "a", Option.none, Value.null, 0, true⟩]
        [("z", Value.null)] = [("z", Value.null)] ∧
      load [⟨"a", "a", Option.none, Value.null, 0, true⟩]
        [("z", Value.null)] = Except.error (LoadErr.missing "a") ∧
      LoadErr.missing "a" ≠
        LoadErr.unknown (minKey [("z", Value.null)]) :=
  ⟨by decide, rfl, by decide⟩

/-- C7 amended: provided every required field key is present and every
bound field value passes its validator (and keys are not duplicated),
loading fails naming the lexicographically smallest leftover key exactly
when some mapping key is not a field key; with no leftover keys loading
succeeds. -/
theorem load_leftover_characterization (fields : List TestFieldSpec)
    (m : List (String × Value))
    (hndf : (fields.map (fun f => f.key)).Nodup)
    (hndm : (m.map Prod.fst).Nodup)
    (hreq : ∀ f ∈ fields, f.required = true → f.key ∈ m.map Prod.fst)
    (hchk : ∀ f ∈ fields, ∀ v, dictLookup m f.key = Option.some v →
      checkOk f v = true) :
    (leftover fields m ≠ [] →
      load fields m =
        Except.error (LoadErr.unknown (minKey (leftover fields m)))) ∧
    (leftover fields m = [] →
      ∃ vs, load fields m = Except.ok (vs, [])) := by
  obtain ⟨vs, hvs⟩ := loadFields_leftover fields m hndf hndm hreq hchk
  constructor
  · intro hne
    unfold load
    rw [hvs]
    have hemp : (leftover fields m).isEmpty = false := by
      cases hl : leftover fields m with
      | nil => exact absurd hl hne
      | cons p ps => simp
    simp [hemp]
  · intro heq
    refine ⟨vs, ?_⟩
    unfold load
    rw [hvs, heq]
    simp

/-- C7 witness: the amended characterization at a concrete schema, in both
directions (a leftover key z reported as unknown, and a clean mapping that
loads). -/
theorem load_leftover_characterization_witness :
    load [⟨"a", "a", Option.none, Value.null, 0, true⟩]
        [("a", Value.int 1), ("z", Value.null)] =
      Except.error (LoadErr.unknown "z") :=
  (load_leftover_characterization
    [⟨"a", "a", Option.none, Value.null, 0, true⟩]
    [("a", Value.int 1), ("z", Value.null)]
    (by decide) (by decide) (by decide) (by decide)).1 (by decide)

theorem applyStateOps_snapshots (ops : List StateOp) :
    ∀ (t : PState), (applyStateOps t ops).snapshots = t.snapshots := by
  induction ops with
  | nil => intro t; rfl
  | cons op rest ih =>
    intro t
    have h1 : applyStateOps t (op :: rest) =
        applyStateOps (applyStateOp t op) rest := rfl
    rw [h1, ih]
    cases op with
    | set k v => rfl
    | del k => rfl

/-- C8: any sequence of insertions, updates and deletions performed
between save and the matching restore is discarded: after restore the
live map is exactly the map at the moment of save, and the snapshot used
is popped off the snapshot stack. -/
theorem state_save_restore_roundtrip (s : PState) (ops : List StateOp) :
    (PState.restore (applyStateOps (PState.save s) ops)).map = s.map ∧
    (PState.restore (applyStateOps (PState.save s) ops)).snapshots =
      s.snapshots := by
  have hsnap : (applyStateOps (PState.save s) ops).snapshots =
      s.map :: s.snapshots := by
    rw [applyStateOps_snapshots]
    rfl
  constructor
  · show (applyStateOps (PState.save s) ops).snapshots.headD _ = s.map
    rw [hsnap]
    rfl
  · show (applyStateOps (PState.save s) ops).snapshots.tail = s.snapshots
    rw [hsnap]
    rfl

theorem ctlRun_halted_iff (ops : List CtlOp) :
    ∀ (c : Ctl),
      (ctlRun c ops).halted = true ↔
        (c.halted = true ∨ CtlOp.halt ∈ ops ∨
          (c.maxErrors ≠ 0 ∧ 1 ≤ countFailed ops ∧
            c.maxErrors ≤ c.failureNum + countFailed ops)) := by
  induction ops with
  | nil =>
    intro c
    simp [ctlRun, countFailed]
  | cons op rest ih =>
    intro c
    have h1 : ctlRun c (op :: rest) = ctlRun (ctlStep c op) rest := rfl
    rw [h1, ih]
    cases op with
    | passed =>
      simp [ctlStep, countFailed, List.filter_cons]
    | updated =>
      simp [ctlStep, countFailed, List.filter_cons]
    | halt =>
      simp [ctlStep, countFailed, List.filter_cons]
    | failed =>
      have hcnt : countFailed (CtlOp.failed :: rest) = countFailed rest + 1 := by
        simp [countFailed, List.filter_cons]
      rw [hcnt]
      by_cases hc : c.maxErrors ≠ 0 ∧ c.maxErrors ≤ c.failureNum + 1
      · have hstep : ctlStep c CtlOp.failed =
            { c with failureNum := c.failureNum + 1, halted := true } := by
          simp only [ctlStep]
          rw [if_pos]
          simp only [decide_eq_true hc.1, ne_eq]
          rcases hc with ⟨h1, h2⟩
          simp [h1, h2]
        rw [hstep]
        simp only [List.mem_cons, ne_eq]
        constructor
        · intro _
          right
          right
          exact ⟨hc.1, by omega, by omega⟩
        · intro _
          left
          trivial
      · have hstep : ctlStep c CtlOp.failed =
            { c with failureNum := c.failureNum + 1 } := by
          simp only [ctlStep]
          rw [if_neg]
          intro hcond
          rw [Bool.and_eq_true, decide_eq_true_eq, decide_eq_true_eq] at hcond
          exact hc hcond
        rw [hstep]
        simp only [List.mem_cons, ne_eq]
        constructor
        · rintro (h | h | h)
          · exact Or.inl h
          · exact Or.inr (Or.inl (Or.inr h))
          · refine Or.inr (Or.inr ⟨h.1, by omega, by omega⟩)
        · rintro (h | h | h)
          · exact Or.inl h
          · rcases h with h | h
            · exact absurd h (by simp)
            · exact Or.inr (Or.inl h)
          · by_cases hcnt0 : countFailed rest = 0
            · exfalso
              rw [hcnt0] at h
              exact hc ⟨h.1, by omega⟩
            · refine Or.inr (Or.inr ⟨h.1, by omega, by omega⟩)

/-- C9: the halted flag is monotonic, and over any operation sequence from
a fresh Control it is raised exactly when an explicit halt occurred or the
failure threshold is nonzero and the accumulated failures reached it; with
threshold zero failures never raise it. -/
theorem ctl_halted_characterization :
    (∀ (c : Ctl) (op : CtlOp), c.halted = true →
      (ctlStep c op).halted = true) ∧
    (∀ (me : Nat) (ops : List CtlOp),
      (ctlRun (ctlInit me) ops).halted = true ↔
        (CtlOp.halt ∈ ops ∨ (me ≠ 0 ∧ me ≤ countFailed ops))) := by
  constructor
  · intro c op hh
    cases op with
    | passed => exact hh
    | updated => exact hh
    | halt => rfl
    | failed =>
      simp only [ctlStep]
      by_cases hcond : (decide ¬c.maxErrors = 0 &&
          decide (c.maxErrors ≤ c.failureNum + 1)) = true
      · rw [if_pos hcond]
      · rw [if_neg hcond]
        exact hh
  · intro me ops
    rw [ctlRun_halted_iff]
    simp only [ctlInit, Bool.false_eq_true, false_or, ne_eq]
    constructor
    · rintro (h | h)
      · exact Or.inl h
      · exact Or.inr ⟨h.1, by omega⟩
    · rintro (h | h)
      · exact Or.inl h
      · refine Or.inr ⟨h.1, ?_, by omega⟩
        have : me ≠ 0 := h.1
        omega

/-- C9 witness: monotonicity applied at a concrete halted state, and the
characterization at a concrete run of one failure under threshold one. -/
theorem ctl_halted_characterization_witness :
    (ctlStep ⟨0, 0, 0, 1, true⟩ CtlOp.passed).halted = true ∧
      (ctlRun (ctlInit 1) [CtlOp.failed]).halted = true :=
  ⟨ctl_halted_characterization.1 ⟨0, 0, 0, 1, true⟩ CtlOp.passed rfl,
    (ctl_halted_characterization.2 1 [CtlOp.failed]).mpr
      (Or.inr ⟨by decide, by decide⟩)⟩

/-- C4: complements is false whenever the owning test types differ
(whatever the field values), false when the record classes coincide,
false when no required field of the first record is shared (by attribute)
with a required field of the second, and otherwise decided exactly by
agreement on the value of the first shared required field. -/
theorem complements_characterization :
    (∀ a b : RecordVal, a.type.owner ≠ b.type.owner →
      complements a b = false) ∧
    (∀ a b : RecordVal, a.type.id = b.type.id →
      complements a b = false) ∧
    (∀ a b : RecordVal,
      (∀ f ∈ a.type.fields,
        ¬(f.required = true ∧ f.attr ∈ requiredAttrs b)) →
      complements a b = false) ∧
    (∀ (a b : RecordVal) (f : TestFieldSpec) (va vb : Value),
      a.type.owner = b.type.owner → a.type.id ≠ b.type.id →
      matchField a b = Option.some f →
      attrVal a f.attr = Option.some va →
      attrVal b f.attr = Option.some vb →
      (complements a b = true ↔ va = vb)) := by
  refine ⟨?_, ?_, ?_, ?_⟩
  · intro a b hne
    simp [complements, hne]
  · intro a b heq
    simp [complements, heq]
  · intro a b hnone
    have hmf : matchField a b = Option.none := by
      unfold matchField
      rw [List.find?_eq_none]
      intro f hf hpred
      rw [Bool.and_eq_true] at hpred
      exact hnone f hf ⟨hpred.1, List.elem_iff.mp hpred.2⟩
    simp only [complements, hmf]
    split
    · rfl
    · rfl
  · intro a b f va vb howner hid hmf hva hvb
    simp [complements, howner, hid, hmf, hva, hvb]

/-- C4 witness: two complementary records of one test type agreeing on
their shared required identifying field. -/
theorem complements_characterization_witness :
    complements
      ⟨⟨7, 0, [⟨"id", "id", Option.none, Value.null, 0, true⟩]⟩,
        [Value.int 5]⟩
      ⟨⟨7, 1, [⟨"id", "id", Option.none, Value.null, 0, true⟩]⟩,
        [Value.int 5]⟩ = true :=
  (complements_characterization.2.2.2
    ⟨⟨7, 0, [⟨"id", "id", Option.none, Value.null, 0, true⟩]⟩,
      [Value.int 5]⟩
    ⟨⟨7, 1, [⟨"id", "id", Option.none, Value.null, 0, true⟩]⟩,
      [Value.int 5]⟩
    ⟨"id", "id", Option.none, Value.null, 0, true⟩
    (Value.int 5) (Value.int 5)
    rfl (by decide) rfl rfl rfl).mpr rfl

/-- C5: selection semantics.  An unrestricted selection contains every
identifier; a restricted one contains exactly the identifiers glob-matched
by some pattern head; descend pushes the pattern set and replaces it with
the matching tails, turning unrestricted when a pattern is exhausted;
ascend restores the pushed set; and on the patterns a/b and a/star,
descending into a leaves both b and any other identifier selected, and a
further descent into b makes the selection unrestricted. -/
theorem selection_semantics :
    (∀ (sel : Selection) (suite : String), sel.targets = Option.none →
      sel.containsSuite suite = true) ∧
    (∀ (sel : Selection) (ts : List (List String)) (suite : String),
      sel.targets = Option.some ts →
      (sel.containsSuite suite = true ↔
        ∃ t ∈ ts, headMatches suite t = true)) ∧
    (∀ (sel : Selection) (suite : String),
      (sel.descend suite).saved = sel.targets :: sel.saved ∧
      (sel.descend suite).path = sel.path ++ [suite]) ∧
    (∀ (sel : Selection) (ts : List (List String)) (suite : String),
      sel.targets = Option.some ts →
      (sel.descend suite).targets =
        (if ((ts.filter (fun t => headMatches suite t)).map
            (fun t => t.tail)).contains [] then
          Option.none
        else
          Option.some ((ts.filter (fun t => headMatches suite t)).map
            (fun t => t.tail)))) ∧
    (∀ (sel : Selection) (suite : String),
      ((sel.descend suite).ascend).targets = sel.targets ∧
      ((sel.descend suite).ascend).saved = sel.saved ∧
      ((sel.descend suite).ascend).path = sel.path) ∧
    (((mkSelection [["a", "b"], ["a", "*"]]).descend "a").containsSuite "b"
        = true ∧
      ((mkSelection [["a", "b"], ["a", "*"]]).descend "a").containsSuite
        "anything" = true ∧
      ∀ suite : String,
        (((mkSelection [["a", "b"], ["a", "*"]]).descend "a").descend
          "b").containsSuite suite = true) := by
  have hnone : ∀ (sel : Selection) (suite : String),
      sel.targets = Option.none → sel.containsSuite suite = true := by
    intro sel suite h
    simp [Selection.containsSuite, h]
  have hdescend : ∀ (sel : Selection) (suite : String),
      (sel.descend suite).saved = sel.targets :: sel.saved ∧
      (sel.descend suite).path = sel.path ++ [suite] := by
    intro sel suite
    unfold Selection.descend
    cases htg : sel.targets with
    | none => exact ⟨by simp [htg], rfl⟩
    | some ts =>
      dsimp only
      by_cases hc : ((ts.filter (fun t => headMatches suite t)).map
          (fun t => t.tail)).contains [] = true
      · rw [if_pos hc]
        exact ⟨rfl, rfl⟩
      · rw [if_neg hc]
        exact ⟨rfl, rfl⟩
  refine ⟨hnone, ?_, hdescend, ?_, ?_, ?_, ?_, ?_⟩
  · intro sel ts suite h
    simp [Selection.containsSuite, h, List.any_eq_true]
  · intro sel ts suite h
    unfold Selection.descend
    rw [h]
    dsimp only
    by_cases hc : ((ts.filter (fun t => headMatches suite t)).map
        (fun t => t.tail)).contains [] = true
    · rw [if_pos hc, if_pos hc]
    · rw [if_neg hc, if_neg hc]
  · intro sel suite
    have hsaved := (hdescend sel suite).1
    have hpath := (hdescend sel suite).2
    unfold Selection.ascend
    rw [hsaved, hpath]
    refine ⟨rfl, rfl, ?_⟩
    simp
  · decide
  · decide
  · intro suite
    apply hnone
    decide

/-- C5 witness: the restricted-contains characterization applied at a
concrete one-pattern selection. -/
theorem selection_semantics_witness :
    (Selection.mk [] (Option.some [["a", "b"]]) []).containsSuite "a"
      = true :=
  (selection_semantics.2.1 ⟨[], Option.some [["a", "b"]], []⟩
    [["a", "b"]] "a" rfl).mpr ⟨["a", "b"], by decide, by decide⟩

theorem insertSorted_of_le {α : Type} (x : Nat × α) (l : List (Nat × α))
    (h : ∀ y ∈ l, x.1 ≤ y.1) : insertSorted x l = x :: l := by
  cases l with
  | nil => rfl
  | cons y ys =>
    have : ¬(y.1 < x.1) := Nat.not_lt.mpr (h y (by simp))
    simp [insertSorted, this]

theorem sortByIdx_sorted_id {α : Type} (l : List (Nat × α))
    (h : l.Pairwise (fun a b => a.1 ≤ b.1)) : sortByIdx l = l := by
  induction l with
  | nil => rfl
  | cons x xs ih =>
    have h1 : sortByIdx (x :: xs) = insertSorted x (sortByIdx xs) := rfl
    rw [h1, ih (List.Pairwise.of_cons h)]
    exact insertSorted_of_le x xs (fun y hy => List.rel_of_pairwise_cons h hy)

theorem revFoldl_eq_insRec {α : Type} (ins : List (Nat × α)) :
    ∀ (ts : List α),
      ins.reverse.foldl (fun ts p => pyInsert ts p.1 p.2) ts =
        insRec ts ins := by
  induction ins with
  | nil => intro ts; rfl
  | cons p ps ih =>
    intro ts
    rw [List.reverse_cons, List.foldl_append, ih]
    rfl

theorem applyInserts_eq_insRec {α : Type} (ts : List α)
    (ins : List (Nat × α)) (h : ins.Pairwise (fun a b => a.1 ≤ b.1)) :
    applyInserts ts ins = insRec ts ins := by
  unfold applyInserts
  rw [sortByIdx_sorted_id ins h, revFoldl_eq_insRec]

theorem length_pyInsert {α : Type} (l : List α) (i : Nat) (a : α) :
    (pyInsert l i a).length = l.length + 1 := by
  simp only [pyInsert, List.length_append, List.length_take,
    List.length_cons, List.length_drop]
  omega

theorem pyInsert_zero {α : Type} (l : List α) (a : α) :
    pyInsert l 0 a = a :: l := rfl

theorem pyInsert_succ_cons {α : Type} (x : α) (l : List α) (i : Nat)
    (a : α) : pyInsert (x :: l) (i + 1) a = x :: pyInsert l i a := by
  simp [pyInsert, List.take_succ_cons, List.drop_succ_cons]

theorem pyInsert_comm {α : Type} :
    ∀ (q : Nat) (l : List α) (p : Nat) (v w : α), q ≤ p → p ≤ l.length →
      pyInsert (pyInsert l p v) q w = pyInsert (pyInsert l q w) (p + 1) v := by
  intro q
  induction q with
  | zero =>
    intro l p v w _ _
    rw [pyInsert_zero, pyInsert_zero, pyInsert_succ_cons]
  | succ q ih =>
    intro l p v w hqp hpl
    cases p with
    | zero => omega
    | succ p =>
      cases l with
      | nil => simp at hpl
      | cons x xs =>
        rw [pyInsert_succ_cons, pyInsert_succ_cons, pyInsert_succ_cons,
          pyInsert_succ_cons,
          ih xs p v w (by omega) (by simpa using hpl)]

theorem pyInsert_set_comm {α : Type} :
    ∀ (j : Nat) (l : List α) (m : Nat) (v w : α), j ≤ m → m < l.length →
      pyInsert (l.set m v) j w = (pyInsert l j w).set (m + 1) v := by
  intro j
  induction j with
  | zero =>
    intro l m v w _ _
    rw [pyInsert_zero, pyInsert_zero]
    rfl
  | succ j ih =>
    intro l m v w hjm hml
    cases m with
    | zero => omega
    | succ m =>
      cases l with
      | nil => simp at hml
      | cons x xs =>
        rw [List.set_cons_succ, pyInsert_succ_cons, pyInsert_succ_cons,
          ih xs m v w (by omega) (by simpa using hml), List.set_cons_succ]

theorem map_pyInsert {α β : Type} (g : α → β) (l : List α) (i : Nat)
    (a : α) : (pyInsert l i a).map g = pyInsert (l.map g) i (g a) := by
  simp [pyInsert, List.map_append, List.map_take, List.map_drop]

theorem length_insRec {α : Type} (ins : List (Nat × α)) :
    ∀ (ts : List α), (insRec ts ins).length = ts.length + ins.length := by
  induction ins with
  | nil => intro ts; rfl
  | cons p ps ih =>
    intro ts
    have h1 : insRec ts (p :: ps) = pyInsert (insRec ts ps) p.1 p.2 := rfl
    rw [h1, length_pyInsert, ih]
    simp only [List.length_cons]
    omega

theorem insRec_append {α : Type} (ins : List (Nat × α)) :
    ∀ (ts : List α) (n : Nat) (v : α),
      (∀ p ∈ ins, p.1 ≤ n) → n ≤ ts.length →
      insRec ts (ins ++ [(n, v)]) =
        pyInsert (insRec ts ins) (n + ins.length) v := by
  induction ins with
  | nil => intro ts n v _ _; rfl
  | cons q qs ih =>
    intro ts n v hle hn
    have h1 : insRec ts ((q :: qs) ++ [(n, v)]) =
        pyInsert (insRec ts (qs ++ [(n, v)])) q.1 q.2 := rfl
    rw [h1, ih ts n v (fun p hp => hle p (by simp [hp])) hn,
      pyInsert_comm q.1 (insRec ts qs) (n + qs.length) v q.2
        (Nat.le_trans (hle q (by simp)) (Nat.le_add_right n qs.length))
        (by rw [length_insRec]; omega)]
    have h2 : insRec ts (q :: qs) = pyInsert (insRec ts qs) q.1 q.2 := rfl
    have h3 : n + (q :: qs).length = n + qs.length + 1 := by
      simp only [List.length_cons]
      omega
    rw [h3, ← h2]

theorem insRec_set {α : Type} (ins : List (Nat × α)) :
    ∀ (ts : List α) (i : Nat) (v : α),
      (∀ p ∈ ins, p.1 ≤ i) → i < ts.length →
      insRec (ts.set i v) ins = (insRec ts ins).set (i + ins.length) v := by
  induction ins with
  | nil => intro ts i v _ _; rfl
  | cons q qs ih =>
    intro ts i v hle hi
    have h1 : insRec (ts.set i v) (q :: qs) =
        pyInsert (insRec (ts.set i v) qs) q.1 q.2 := rfl
    rw [h1, ih ts i v (fun p hp => hle p (by simp [hp])) hi,
      pyInsert_set_comm q.1 (insRec ts qs) (i + qs.length) v q.2
        (Nat.le_trans (hle q (by simp)) (Nat.le_add_right i qs.length))
        (by rw [length_insRec]; omega)]
    have h2 : insRec ts (q :: qs) = pyInsert (insRec ts qs) q.1 q.2 := rfl
    have h3 : i + (q :: qs).length = i + qs.length + 1 := by
      simp only [List.length_cons]
      omega
    rw [h3, ← h2]

theorem findIdx_pyInsert {β : Type} (pred : β → Bool) (w : β)
    (hw : pred w = false) :
    ∀ (n : Nat) (l : List β), l.findIdx pred < l.length →
      (pyInsert l n w).findIdx pred =
        if l.findIdx pred < n then l.findIdx pred
        else l.findIdx pred + 1 := by
  intro n
  induction n with
  | zero =>
    intro l hfound
    rw [pyInsert_zero, List.findIdx_cons, hw]
    simp
  | succ n ih =>
    intro l hfound
    cases l with
    | nil => simp at hfound
    | cons x xs =>
      rw [pyInsert_succ_cons, List.findIdx_cons, List.findIdx_cons]
      by_cases hx : pred x = true
      · simp [hx]
      · rw [Bool.of_not_eq_true hx]
        simp only [cond_false]
        rw [List.findIdx_cons, Bool.of_not_eq_true hx] at hfound
        simp only [cond_false, List.length_cons] at hfound
        rw [ih xs (by omega)]
        split_ifs <;> omega

theorem findIdx_tagged {β : Type} :
    ∀ (L : List (Option Nat × β)) (k i : Nat),
      (∀ (j : Nat) (h : j < L.length),
        (L.get ⟨j, h⟩).1 = Option.some (k + j)) →
      k ≤ i → i < k + L.length →
      L.findIdx (fun e => e.1 == Option.some i) = i - k := by
  intro L
  induction L with
  | nil =>
    intro k i htag hki hik
    simp only [List.length_nil] at hik
    omega
  | cons x xs ih =>
    intro k i htag hki hik
    have hx : x.1 = Option.some k := by
      have := htag 0 (by simp)
      simpa using this
    rw [List.findIdx_cons]
    by_cases hik2 : i = k
    · rw [hik2]
      have : (x.1 == Option.some k) = true := by
        rw [hx]
        exact beq_self_eq_true _
      rw [this]
      simp
    · have hpred : (x.1 == Option.some i) = false := by
        rw [hx]
        simp only [beq_eq_false_iff_ne, ne_eq, Option.some.injEq]
        omega
      rw [hpred]
      simp only [cond_false]
      have htag2 : ∀ (j : Nat) (h : j < xs.length),
          (xs.get ⟨j, h⟩).1 = Option.some (k + 1 + j) := by
        intro j h
        have := htag (j + 1) (by simp; omega)
        simp only [List.get_cons_succ] at this
        rw [this]
        congr 1
        omega
      rw [ih (k + 1) i htag2 (by omega)
        (by simp only [List.length_cons] at hik; omega)]
      omega

theorem findIdx_insRec_tagIns {α : Type} (ins : List (Nat × α)) :
    ∀ (L : List (Option Nat × α)) (i : Nat),
      (∀ (j : Nat) (h : j < L.length), (L.get ⟨j, h⟩).1 = Option.some j) →
      (∀ p ∈ ins, p.1 ≤ i) → i < L.length →
      (insRec L (tagIns ins)).findIdx (fun e => e.1 == Option.some i) =
        i + ins.length := by
  induction ins with
  | nil =>
    intro L i htag _ hi
    have := findIdx_tagged L 0 i
      (fun j h => by simpa using htag j h) (Nat.zero_le i) (by omega)
    simpa using this
  | cons p ps ih =>
    intro L i htag hle hi
    have h1 : insRec L (tagIns (p :: ps)) =
        pyInsert (insRec L (tagIns ps)) p.1 (Option.none, p.2) := rfl
    rw [h1]
    have hfound : (insRec L (tagIns ps)).findIdx
        (fun e => e.1 == Option.some i) = i + ps.length :=
      ih L i htag (fun q hq => hle q (by simp [hq])) hi
    have hlen : (insRec L (tagIns ps)).length = L.length + ps.length := by
      have := length_insRec (tagIns ps) L
      simpa [tagIns] using this
    rw [findIdx_pyInsert (fun e => e.1 == Option.some i)
      (Option.none, p.2) (by simp) p.1 (insRec L (tagIns ps))
      (by rw [hfound, hlen]; omega)]
    rw [hfound]
    have : ¬(i + ps.length < p.1) := by
      have := hle p (by simp)
      omega
    rw [if_neg this]
    simp only [List.length_cons]
    omega

theorem length_tagBase {α : Type} (ts : List α) :
    (tagBase ts).length = ts.length := by
  simp [tagBase]

theorem tagBase_tag {α : Type} (ts : List α) :
    ∀ (j : Nat) (h : j < (tagBase ts).length),
      ((tagBase ts).get ⟨j, h⟩).1 = Option.some j := by
  intro j h
  simp [tagBase, List.get_eq_getElem]

theorem length_applyUpdT {α : Type} (upd : List (Nat × α)) :
    ∀ (ts : List (Option Nat × α)), (applyUpdT ts upd).length = ts.length := by
  induction upd with
  | nil => intro ts; rfl
  | cons p ps ih =>
    intro ts
    have h1 : applyUpdT ts (p :: ps) =
        applyUpdT (ts.set p.1 (Option.some p.1, p.2)) ps := rfl
    rw [h1, ih]
    simp

theorem applyUpdT_tag {α : Type} (upd : List (Nat × α)) :
    ∀ (ts : List (Option Nat × α)),
      (∀ (j : Nat) (h : j < ts.length), (ts.get ⟨j, h⟩).1 = Option.some j) →
      ∀ (j : Nat) (h : j < (applyUpdT ts upd).length),
        ((applyUpdT ts upd).get ⟨j, h⟩).1 = Option.some j := by
  induction upd with
  | nil => intro ts htag; exact htag
  | cons p ps ih =>
    intro ts htag
    have h1 : applyUpdT ts (p :: ps) =
        applyUpdT (ts.set p.1 (Option.some p.1, p.2)) ps := rfl
    rw [h1]
    apply ih
    intro j h
    simp only [List.get_eq_getElem, List.getElem_set]
    by_cases hpj : p.1 = j
    · rw [if_pos hpj, ← hpj]
    · rw [if_neg hpj]
      have h2 : j < ts.length := by simpa using h
      exact htag j h2

theorem map_snd_tagBase {α : Type} (ts : List α) :
    (tagBase ts).map Prod.snd = ts := by
  simp [tagBase, List.map_map]
  exact List.enum_map_snd ts

theorem map_snd_applyUpdT {α : Type} (upd : List (Nat × α)) :
    ∀ (ts : List (Option Nat × α)),
      (applyUpdT ts upd).map Prod.snd =
        applyUpdates (ts.map Prod.snd) upd := by
  induction upd with
  | nil => intro ts; rfl
  | cons p ps ih =>
    intro ts
    have h1 : applyUpdT ts (p :: ps) =
        applyUpdT (ts.set p.1 (Option.some p.1, p.2)) ps := rfl
    have h2 : applyUpdates (ts.map Prod.snd) (p :: ps) =
        applyUpdates ((ts.map Prod.snd).set p.1 p.2) ps := rfl
    rw [h1, h2, ih]
    congr 1
    exact List.map_set

theorem map_snd_insRec_tagIns {α : Type} (ins : List (Nat × α)) :
    ∀ (ts : List (Option Nat × α)),
      (insRec ts (tagIns ins)).map Prod.snd =
        insRec (ts.map Prod.snd) ins := by
  induction ins with
  | nil => intro ts; rfl
  | cons p ps ih =>
    intro ts
    have h1 : insRec ts (tagIns (p :: ps)) =
        pyInsert (insRec ts (tagIns ps)) p.1 (Option.none, p.2) := rfl
    have h2 : insRec (ts.map Prod.snd) (p :: ps) =
        pyInsert (insRec (ts.map Prod.snd) ps) p.1 p.2 := rfl
    rw [h1, h2, map_pyInsert, ih]

theorem length_tagIns {α : Type} (ins : List (Nat × α)) :
    (tagIns ins).length = ins.length := by
  simp [tagIns]

theorem tagIns_le {α : Type} (ins : List (Nat × α)) (n : Nat)
    (h : ∀ p ∈ ins, p.1 ≤ n) : ∀ p ∈ tagIns ins, p.1 ≤ n := by
  intro p hp
  simp only [tagIns, List.mem_map] at hp
  rcases hp with ⟨q, hq, hpq⟩
  rw [← hpq]
  exact h q hq

theorem applyUpdT_append {α : Type} (ts : List (Option Nat × α))
    (upd : List (Nat × α)) (i : Nat) (v : α) :
    applyUpdT ts (upd ++ [(i, v)]) =
      (applyUpdT ts upd).set i (Option.some i, v) := by
  unfold applyUpdT
  rw [List.foldl_append]
  rfl

theorem tagIns_append {α : Type} (ins : List (Nat × α)) (n : Nat) (v : α) :
    tagIns (ins ++ [(n, v)]) = tagIns ins ++ [(n, (Option.none, v))] := by
  simp [tagIns]

theorem length_realize {α : Type} (ts0 : List α) (upd ins : List (Nat × α)) :
    (realize ts0 upd ins).length = ts0.length + ins.length := by
  unfold realize
  rw [length_insRec, length_applyUpdT, length_tagBase, length_tagIns]

theorem findIdx_realize {α : Type} (ts0 : List α) (upd ins : List (Nat × α))
    (i : Nat) (hle : ∀ p ∈ ins, p.1 ≤ i) (hlt : i < ts0.length) :
    (realize ts0 upd ins).findIdx (fun e => e.1 == Option.some i) =
      i + ins.length := by
  unfold realize
  have h := findIdx_insRec_tagIns ins
    (applyUpdT (tagBase ts0) upd) i
    (applyUpdT_tag upd (tagBase ts0) (tagBase_tag ts0))
    hle
    (by rw [length_applyUpdT, length_tagBase]; exact hlt)
  exact h

theorem realize_set {α : Type} (ts0 : List α) (upd ins : List (Nat × α))
    (i : Nat) (v : α) (hle : ∀ p ∈ ins, p.1 ≤ i) (hlt : i < ts0.length) :
    realize ts0 (upd ++ [(i, v)]) ins =
      (realize ts0 upd ins).set (i + ins.length) (Option.some i, v) := by
  unfold realize
  rw [applyUpdT_append]
  have h := insRec_set (tagIns ins) (applyUpdT (tagBase ts0) upd) i
    (Option.some i, v) (tagIns_le ins i hle)
    (by rw [length_applyUpdT, length_tagBase]; exact hlt)
  rw [h, length_tagIns]

theorem realize_insert {α : Type} (ts0 : List α) (upd ins : List (Nat × α))
    (n : Nat) (v : α) (hle : ∀ p ∈ ins, p.1 ≤ n) (hn : n ≤ ts0.length) :
    realize ts0 upd (ins ++ [(n, v)]) =
      pyInsert (realize ts0 upd ins) (n + ins.length) (Option.none, v) := by
  unfold realize
  rw [tagIns_append]
  have h := insRec_append (tagIns ins) (applyUpdT (tagBase ts0) upd) n
    (Option.none, v) (tagIns_le ins n hle)
    (by rw [length_applyUpdT, length_tagBase]; exact hn)
  rw [h, length_tagIns]

theorem mergeSim {α : Type} :
    ∀ (cases : List (CaseEntry α)) (ts0 : List α) (next : Nat)
      (upd ins : List (Nat × α)),
      next ≤ ts0.length →
      (∀ p ∈ ins, p.1 ≤ next) →
      ins.Pairwise (fun a b => a.1 ≤ b.1) →
      (priorsOf cases).Pairwise (fun a b => a < b) →
      (∀ i ∈ priorsOf cases, next ≤ i ∧ i < ts0.length) →
      (cases.foldl specStepAmended
          (realize ts0 upd ins, next + ins.length) =
        (realize ts0 (cases.foldl scanStep (next, upd, ins)).2.1
          (cases.foldl scanStep (next, upd, ins)).2.2,
         (cases.foldl scanStep (next, upd, ins)).1 +
           (cases.foldl scanStep (next, upd, ins)).2.2.length)) ∧
      (∀ p ∈ (cases.foldl scanStep (next, upd, ins)).2.2,
        p.1 ≤ (cases.foldl scanStep (next, upd, ins)).1) ∧
      ((cases.foldl scanStep (next, upd, ins)).2.2).Pairwise
        (fun a b => a.1 ≤ b.1) ∧
      (cases.foldl scanStep (next, upd, ins)).1 ≤ ts0.length := by
  intro cases
  induction cases with
  | nil =>
    intro ts0 next upd ins h1 h2 h3 _ _
    exact ⟨rfl, h2, h3, h1⟩
  | cons c rest ih =>
    intro ts0 next upd ins hnext hins hsort hpw hbnd
    obtain ⟨cp, ce⟩ := c
    have hfoldS : (List.foldl specStepAmended
        (realize ts0 upd ins, next + ins.length)
        (⟨cp, ce⟩ :: rest)) =
      List.foldl specStepAmended
        (specStepAmended (realize ts0 upd ins, next + ins.length)
          ⟨cp, ce⟩) rest := rfl
    have hfoldC : (List.foldl scanStep (next, upd, ins) (⟨cp, ce⟩ :: rest)) =
      List.foldl scanStep (scanStep (next, upd, ins) ⟨cp, ce⟩) rest := rfl
    rw [hfoldS, hfoldC]
    cases cp with
    | some i =>
      have hpriors : priorsOf (⟨Option.some i, ce⟩ :: rest) =
          i :: priorsOf rest := rfl
      rw [hpriors] at hpw hbnd
      have hbi := hbnd i (by simp)
      have hni : next ≤ i := hbi.1
      have hil : i < ts0.length := hbi.2
      have hinsi : ∀ p ∈ ins, p.1 ≤ i :=
        fun p hp => Nat.le_trans (hins p hp) hni
      have hpos : (realize ts0 upd ins).findIdx
          (fun e => e.1 == Option.some i) = i + ins.length :=
        findIdx_realize ts0 upd ins i hinsi hil
      have hpwrest : (priorsOf rest).Pairwise (fun a b => a < b) :=
        List.Pairwise.of_cons hpw
      have hbndrest : ∀ j ∈ priorsOf rest, i + 1 ≤ j ∧ j < ts0.length :=
        fun j hj => ⟨List.rel_of_pairwise_cons hpw hj, (hbnd j (by simp [hj])).2⟩
      have hinsnew : ∀ p ∈ ins, p.1 ≤ i + 1 :=
        fun p hp => Nat.le_trans (hinsi p hp) (Nat.le_succ i)
      cases ce with
      | none =>
        have hscan : scanStep (next, upd, ins) ⟨Option.some i, Option.none⟩ =
            (i + 1, upd, ins) := rfl
        have hstep : specStepAmended
            (realize ts0 upd ins, next + ins.length)
            ⟨Option.some i, Option.none⟩ =
          (realize ts0 upd ins, (i + 1) + ins.length) := by
          show (realize ts0 upd ins,
            (realize ts0 upd ins).findIdx (fun e => e.1 == Option.some i) + 1)
            = (realize ts0 upd ins, (i + 1) + ins.length)
          rw [hpos]
          congr 1
          omega
        rw [hscan, hstep]
        exact ih ts0 (i + 1) upd ins (by omega) hinsnew hsort hpwrest hbndrest
      | some oe =>
        cases oe with
        | none =>
          have hscan : scanStep (next, upd, ins)
              ⟨Option.some i, Option.some Option.none⟩ =
            (next, upd, ins) := rfl
          have hstep : specStepAmended
              (realize ts0 upd ins, next + ins.length)
              ⟨Option.some i, Option.some Option.none⟩ =
            (realize ts0 upd ins, next + ins.length) := rfl
          rw [hscan, hstep]
          exact ih ts0 next upd ins hnext hins hsort hpwrest
            (fun j hj => ⟨by have := (hbndrest j hj).1; omega,
              (hbndrest j hj).2⟩)
        | some v =>
          have hscan : scanStep (next, upd, ins)
              ⟨Option.some i, Option.some (Option.some v)⟩ =
            (i + 1, upd ++ [(i, v)], ins) := by
            show (if next ≤ i then i + 1 else next, upd ++ [(i, v)], ins) =
              (i + 1, upd ++ [(i, v)], ins)
            rw [if_pos hni]
          have hstep : specStepAmended
              (realize ts0 upd ins, next + ins.length)
              ⟨Option.some i, Option.some (Option.some v)⟩ =
            (realize ts0 (upd ++ [(i, v)]) ins, (i + 1) + ins.length) := by
            show ((realize ts0 upd ins).set
                ((realize ts0 upd ins).findIdx
                  (fun e => e.1 == Option.some i)) (Option.some i, v),
              (realize ts0 upd ins).findIdx
                  (fun e => e.1 == Option.some i) + 1)
              = (realize ts0 (upd ++ [(i, v)]) ins, (i + 1) + ins.length)
            rw [hpos, realize_set ts0 upd ins i v hinsi hil]
            congr 1
            omega
          rw [hscan, hstep]
          exact ih ts0 (i + 1) (upd ++ [(i, v)]) ins (by omega) hinsnew
            hsort hpwrest hbndrest
    | none =>
      have hpriors : priorsOf (⟨Option.none, ce⟩ :: rest) =
          priorsOf rest := rfl
      rw [hpriors] at hpw hbnd
      cases ce with
      | none =>
        have hscan : scanStep (next, upd, ins) ⟨Option.none, Option.none⟩ =
            (next, upd, ins) := rfl
        have hstep : specStepAmended
            (realize ts0 upd ins, next + ins.length)
            ⟨Option.none, Option.none⟩ =
          (realize ts0 upd ins, next + ins.length) := rfl
        rw [hscan, hstep]
        exact ih ts0 next upd ins hnext hins hsort hpw hbnd
      | some oe =>
        cases oe with
        | none =>
          have hscan : scanStep (next, upd, ins)
              ⟨Option.none, Option.some Option.none⟩ =
            (next, upd, ins) := rfl
          have hstep : specStepAmended
              (realize ts0 upd ins, next + ins.length)
              ⟨Option.none, Option.some Option.none⟩ =
            (realize ts0 upd ins, next + ins.length) := rfl
          rw [hscan, hstep]
          exact ih ts0 next upd ins hnext hins hsort hpw hbnd
        | some v =>
          have hscan : scanStep (next, upd, ins)
              ⟨Option.none, Option.some (Option.some v)⟩ =
            (next, upd, ins ++ [(next, v)]) := rfl
          have hstep : specStepAmended
              (realize ts0 upd ins, next + ins.length)
              ⟨Option.none, Option.some (Option.some v)⟩ =
            (realize ts0 upd (ins ++ [(next, v)]),
              next + (ins ++ [(next, v)]).length) := by
            show (pyInsert (realize ts0 upd ins) (next + ins.length)
                (Option.none, v), (next + ins.length) + 1)
              = (realize ts0 upd (ins ++ [(next, v)]),
                next + (ins ++ [(next, v)]).length)
            rw [realize_insert ts0 upd ins next v hins hnext]
            congr 1
            simp only [List.length_append, List.length_cons,
              List.length_nil]
            omega
          rw [hscan, hstep]
          refine ih ts0 next upd (ins ++ [(next, v)]) hnext ?_ ?_ hpw hbnd
          · intro p hp
            rcases List.mem_append.mp hp with hp | hp
            · exact hins p hp
            · simp only [List.mem_singleton] at hp
              rw [hp]
          · rw [List.pairwise_append]
            refine ⟨hsort, List.pairwise_singleton _ _, ?_⟩
            intro a ha b hb
            simp only [List.mem_singleton] at hb
            rw [hb]
            exact hins a ha

theorem map_snd_realize {α : Type} (ts0 : List α)
    (upd ins : List (Nat × α)) :
    (realize ts0 upd ins).map Prod.snd =
      insRec (applyUpdates ts0 upd) ins := by
  unfold realize
  rw [map_snd_insRec_tagIns, map_snd_applyUpdT, map_snd_tagBase]

theorem specFold_allNone {α : Type} (cases : List (CaseEntry α)) :
    ∀ (st : List (Option Nat × α) × Nat),
      cases.all (fun c => c.entry.isNone) = true →
      (cases.foldl specStepAmended st).1 = st.1 := by
  induction cases with
  | nil => intro st _; rfl
  | cons c rest ih =>
    intro st hall
    simp only [List.all_cons, Bool.and_eq_true] at hall
    obtain ⟨cp, ce⟩ := c
    have hce : ce = Option.none := by
      simpa [Option.isNone_iff_eq_none] using hall.1
    subst hce
    have h1 : (List.foldl specStepAmended st (⟨cp, Option.none⟩ :: rest)) =
        List.foldl specStepAmended
          (specStepAmended st ⟨cp, Option.none⟩) rest := rfl
    rw [h1, ih _ hall.2]
    cases cp with
    | some i => rfl
    | none => rfl

/-- C1 counterexample: the cursor description given in the claim disagrees
with the code.  A case whose prior output is present but whose changed
result is no output at all leaves the cursor where it was (so a following
new case is inserted before, not after, the retained prior output), and a
changed case whose matched prior sits before the current cursor does not
move the cursor back (so a following insert lands at the old cursor, not
just past the early position). -/
theorem trainMerge_claim_cex :
    trainMergeCode [10]
        [⟨Option.some 0, Option.some Option.none⟩,
         ⟨Option.none, Option.some (Option.some 20)⟩] = [20, 10] ∧
      specMergeClaim [10]
        [⟨Option.some 0, Option.some Option.none⟩,
         ⟨Option.none, Option.some (Option.some 20)⟩] = [10, 20] ∧
      trainMergeCode [10]
        [⟨Option.some 0, Option.some Option.none⟩,
         ⟨Option.none, Option.some (Option.some 20)⟩] ≠
        specMergeClaim [10]
          [⟨Option.some 0, Option.some Option.none⟩,
           ⟨Option.none, Option.some (Option.some 20)⟩] ∧
      trainMergeCode [1, 2]
        [⟨Option.some 1, Option.some (Option.some 22)⟩,
         ⟨Option.some 0, Option.some (Option.some 11)⟩,
         ⟨Option.none, Option.some (Option.some 9)⟩] ≠
        specMergeClaim [1, 2]
          [⟨Option.some 1, Option.some (Option.some 22)⟩,
           ⟨Option.some 0, Option.some (Option.some 11)⟩,
           ⟨Option.none, Option.some (Option.some 9)⟩] := by
  refine ⟨by decide, by decide, by decide, by decide⟩

/-- C1 (amended): whenever the matched prior outputs occur in the prior
list in case order (as produced by in-order matching) and a case whose
prior output is present but which now produces no output leaves both the
list and the cursor untouched, the train reconciliation of SuiteCase is
exactly the order-preserving cursor algorithm of the claim; and on the
worked example the non-purge result is [O1, O4, O2p, O3] and the purge
result is [O1, O4, O2p]. -/
theorem trainMerge_characterization :
    (∀ (α : Type) (tests0 : List α) (cases : List (CaseEntry α)),
      (priorsOf cases).Pairwise (fun a b => a < b) →
      (∀ i ∈ priorsOf cases, i < tests0.length) →
      trainMergeCode tests0 cases = specMergeAmended tests0 cases) ∧
    trainMergeCode [1, 2, 3]
      [⟨Option.some 0, Option.none⟩,
       ⟨Option.none, Option.some (Option.some 4)⟩,
       ⟨Option.some 1, Option.some (Option.some 22)⟩] = [1, 4, 22, 3] ∧
    purgeMergeCode [1, 2, 3]
      [⟨Option.some 0, Option.none⟩,
       ⟨Option.none, Option.some (Option.some 4)⟩,
       ⟨Option.some 1, Option.some (Option.some 22)⟩] = [1, 4, 22] := by
  refine ⟨?_, by decide, by decide⟩
  intro α ts0 cases hpw hbnd
  unfold trainMergeCode
  by_cases hall : cases.all (fun c => c.entry.isNone) = true
  · rw [if_pos hall]
    unfold specMergeAmended
    rw [specFold_allNone cases _ hall]
    exact (map_snd_tagBase ts0).symm
  · rw [if_neg hall]
    have hsim := mergeSim cases ts0 0 [] []
      (Nat.zero_le _) (by simp) List.Pairwise.nil hpw
      (fun i hi => ⟨Nat.zero_le i, hbnd i hi⟩)
    have heq : (cases.foldl specStepAmended (tagBase ts0, 0)).1 =
        realize ts0 ((cases.foldl scanStep (0, [], [])).2.1)
          ((cases.foldl scanStep (0, [], [])).2.2) :=
      congrArg Prod.fst hsim.1
    show applyInserts (applyUpdates ts0 (codeScan cases).2.1)
        (codeScan cases).2.2 = specMergeAmended ts0 cases
    unfold specMergeAmended
    rw [heq, map_snd_realize]
    exact applyInserts_eq_insRec _ _ hsim.2.2.1

/-- C1 witness: the amended equivalence applied at the worked example. -/
theorem trainMerge_characterization_witness :
    trainMergeCode [1, 2, 3]
        [⟨Option.some 0, Option.none⟩,
         ⟨Option.none, Option.some (Option.some 4)⟩,
         ⟨Option.some 1, Option.some (Option.some 22)⟩] =
      specMergeAmended [1, 2, 3]
        [⟨Option.some 0, Option.none⟩,
         ⟨Option.none, Option.some (Option.some 4)⟩,
         ⟨Option.some 1, Option.some (Option.some 22)⟩] :=
  trainMerge_characterization.1 Nat [1, 2, 3]
    [⟨Option.some 0, Option.none⟩,
     ⟨Option.none, Option.some (Option.some 4)⟩,
     ⟨Option.some 1, Option.some (Option.some 22)⟩]
    (by decide) (by decide)
